import Mathlib

/-!
# Verification of the az-storage-cleaner grouping-and-retention engine

Shallow embedding of the TypeScript source. JavaScript strings are modelled
as Lean `String` (chars), `Date` timestamps as `Nat` (milliseconds since the
epoch, as returned by `getTime()`), absent timestamps as `none`, and the
JavaScript `Map<string, FileInfo[]>` as an insertion-ordered association
list. `Array.prototype.sort`, which since ES2019 is a stable sort, is
modelled by the stable `List.mergeSort` with the boolean relation
"comparator result ≤ 0".
-/

/-- A file record: `{ name: string, lastModified: Date | undefined }`
(src/models/Fileinfo). -/
structure FileInfo where
  name : String
  lastModified : Option Nat
deriving DecidableEq, Repr

/-- Index of the first occurrence of `c` in the character list, if any. -/
def firstIdxOf (c : Char) : List Char → Option Nat
  | [] => none
  | x :: xs => if x = c then some 0 else (firstIdxOf c xs).map (· + 1)

/-- JavaScript `String.prototype.indexOf` restricted to a single character:
the index of the first occurrence, or `-1` when absent. -/
def jsIndexOf (s : List Char) (c : Char) : Int :=
  match firstIdxOf c s with
  | none => -1
  | some i => (i : Int)

/-- JavaScript `String.prototype.substring(start, end)`: both arguments are
clamped into `[0, length]` and swapped when `start > end`; the result is the
character range `[start, end)`. -/
def jsSubstring (s : List Char) (start stop : Int) : List Char :=
  let len : Int := (s.length : Int)
  let clamp : Int → Nat := fun x => (min (max x 0) len).toNat
  let a := clamp start
  let b := clamp stop
  if a ≤ b then (s.take b).drop a else (s.take a).drop b

/-- JavaScript `String.prototype.includes` restricted to a one-character
needle: character membership. -/
def jsIncludesChar (s : String) (c : Char) : Bool :=
  s.toList.contains c

/-- `getGroupKey` (src/index.ts): `key.substring(0, key.indexOf('.'))`. -/
def getGroupKey (filename : String) : String :=
  let key := filename.toList
  let firstDotIndex := jsIndexOf key '.'
  let firstPart := jsSubstring key 0 firstDotIndex
  firstPart.asString

/-- Spec-side formulation of key derivation: the substring of the name
strictly before the first `.`, the whole name when no `.` occurs. -/
def keyBeforeFirstDot (s : String) : String :=
  (s.toList.takeWhile (fun ch => !(ch == '.'))).asString

/-- The JavaScript `Map<string, FileInfo[]>` of `listAndGroupContainerFiles`,
as an association list in key-insertion order (the iteration order of a
JavaScript `Map`). -/
abbrev GroupIndex := List (String × List FileInfo)

/-- `Map.prototype.get`: the value stored under `key`, if present. -/
def mapGet : GroupIndex → String → Option (List FileInfo)
  | [], _ => none
  | (k, v) :: rest, key => if k = key then some v else mapGet rest key

/-- The effect of `if (!m.has(key)) m.set(key, []); m.get(key)?.push(f)`:
append `f` to the list under `key`, creating the entry at the end of the
insertion order when the key is new. -/
def mapPush (m : GroupIndex) (key : String) (f : FileInfo) : GroupIndex :=
  match m with
  | [] => [(key, [f])]
  | (k, v) :: rest =>
    if k = key then (k, v ++ [f]) :: rest else (k, v) :: mapPush rest key f

/-- The accumulator state of the listing loop in `listAndGroupContainerFiles`. -/
structure GroupingResult where
  groupedFiles : GroupIndex
  nestedFileCount : Nat
  totalFilesConsidered : Nat
deriving DecidableEq, Repr

/-- One iteration of the `for await (const blob of ...)` loop:
count the blob; skip it (counting it as nested) when its name contains `/`;
otherwise push it onto the group keyed by `getGroupKey(blob.name)`. -/
def groupStep (acc : GroupingResult) (blob : FileInfo) : GroupingResult :=
  let acc := { acc with totalFilesConsidered := acc.totalFilesConsidered + 1 }
  if jsIncludesChar blob.name '/' then
    { acc with nestedFileCount := acc.nestedFileCount + 1 }
  else
    { acc with groupedFiles := mapPush acc.groupedFiles (getGroupKey blob.name) blob }

/-- `listAndGroupContainerFiles` (src/index.ts), with the container listing
supplied as the input sequence of records in listing order. -/
def listAndGroupContainerFiles (blobs : List FileInfo) : GroupingResult :=
  blobs.foldl groupStep ⟨[], 0, 0⟩

/-- The body of the loop in `findEarliestDateInGroup`:
`if (file.lastModified) if (!earliestDate || file.lastModified < earliestDate)
earliestDate = file.lastModified`. -/
def earliestFold (earliestDate : Option Nat) (file : FileInfo) : Option Nat :=
  match file.lastModified with
  | some t =>
    match earliestDate with
    | none => some t
    | some e => if t < e then some t else some e
  | none => earliestDate

/-- `findEarliestDateInGroup` (src/index.ts): the running minimum of the
defined `lastModified` timestamps, `none` when there is none. -/
def findEarliestDateInGroup (files : List FileInfo) : Option Nat :=
  files.foldl earliestFold none

/-- The group comparator of `reorderAndSaveGroupedFiles`: both earliest dates
absent is `0`; an absent earliest sorts after a defined one; otherwise the
signed difference of the two earliest timestamps. -/
def groupCompare (a b : String × List FileInfo) : Int :=
  match findEarliestDateInGroup a.2, findEarliestDateInGroup b.2 with
  | none, none => 0
  | none, some _ => 1
  | some _, none => -1
  | some ea, some eb => (ea : Int) - (eb : Int)

/-- The boolean relation `comparator ≤ 0` used to run the stable sort model. -/
def groupLe (a b : String × List FileInfo) : Bool :=
  decide (groupCompare a b ≤ 0)

/-- `Array.from(groupedFiles.entries()).sort(comparator)`: the group entries
in insertion order, stably sorted by the group comparator. -/
def sortedGroupEntries (m : GroupIndex) : GroupIndex :=
  m.mergeSort groupLe

/-- The within-group display comparator `a.name.localeCompare(b.name)`,
modelled as lexicographic string order. -/
def nameLe (a b : FileInfo) : Bool :=
  decide (a.name ≤ b.name)

/-- JavaScript `array.slice(0, -2)`: all elements but the last two
(everything when the array has fewer than two elements would leave it empty
here only for length ≤ 2, matching the clamped JavaScript semantics). -/
def jsSliceDropLastTwo (l : List FileInfo) : List FileInfo :=
  l.take (l.length - 2)

/-- The records not in `slice(0, -2)`: the last two elements of the group,
the ones the retention policy keeps. -/
def retentionKept (l : List FileInfo) : List FileInfo :=
  l.drop (l.length - 2)

/-- The sanitisation `groupKey.replace(/[^a-zA-Z0-9-.]/g, '_')`. -/
def isSafeChar (c : Char) : Bool :=
  (('a' ≤ c && c ≤ 'z') || ('A' ≤ c && c ≤ 'Z') || ('0' ≤ c && c ≤ '9')
    || c == '-' || c == '.')

/-- `safeGroupKey` in `reorderAndSaveGroupedFiles`: every character outside
`[a-zA-Z0-9-.]` replaced by an underscore. -/
def sanitizeKey (k : String) : String :=
  String.map (fun c => if isSafeChar c then c else '_') k

/-- The observable output of one run of `reorderAndSaveGroupedFiles`:
the per-group report files (name and the name-sorted records rendered in
them), the `alldata` accumulator and the `earliestTotals` accumulator. -/
structure RunOutput where
  reports : List (String × List FileInfo)
  alldata : List FileInfo
  earliestTotals : List FileInfo
deriving DecidableEq, Repr

/-- The body of the `for (const [groupKey, filesInGroup] of sortedGroupEntries)`
loop: groups of fewer than three records are skipped; otherwise the
pre-sort `slice(0, -2)` is appended to `earliestTotals`, the group is sorted
in place by name, a report file is recorded, and the sorted group is
appended to `alldata`. -/
def processEntry (acc : RunOutput) (e : String × List FileInfo) : RunOutput :=
  if e.2.length < 3 then acc
  else
    let filesToSave := jsSliceDropLastTwo e.2
    let et :=
      if 0 < filesToSave.length then acc.earliestTotals ++ filesToSave
      else acc.earliestTotals
    let sortedFiles := e.2.mergeSort nameLe
    { reports := acc.reports ++ [(sanitizeKey e.1 ++ ".txt", sortedFiles)]
      alldata := acc.alldata ++ sortedFiles
      earliestTotals := et }

/-- The loop of `reorderAndSaveGroupedFiles` over the sorted group entries. -/
def processGroups (m : GroupIndex) : RunOutput :=
  (sortedGroupEntries m).foldl processEntry ⟨[], [], []⟩

/-- The state of the `groupedFiles` map after `reorderAndSaveGroupedFiles`
returns: `filesInGroup.sort(...)` sorts each qualifying group's array in
place, and the map holds those same arrays, so every group of three or more
records ends name-sorted while smaller groups are untouched. -/
def finalGroups (m : GroupIndex) : GroupIndex :=
  m.map (fun e => (e.1, if e.2.length < 3 then e.2 else e.2.mergeSort nameLe))

/-- The comparator of `saveEarliestFileRecords`: `0` whenever either
`lastModified` is absent, otherwise the signed difference of the two
timestamps. -/
def earliestCompare (a b : FileInfo) : Int :=
  match a.lastModified, b.lastModified with
  | none, _ => 0
  | _, none => 0
  | some ta, some tb => (ta : Int) - (tb : Int)

/-- The boolean relation `comparator ≤ 0` for the `earliestTotals` sort. -/
def earliestLe (a b : FileInfo) : Bool :=
  decide (earliestCompare a b ≤ 0)

/-- `saveEarliestFileRecords` (src/index.ts): the order in which the excess
records are listed in `earliest_totals.txt`. -/
def saveEarliestFileRecords (earliestTotals : List FileInfo) : List FileInfo :=
  earliestTotals.mergeSort earliestLe

/-- The artifact file names written by the saving phase: one report per
qualifying group, `alldata.csv` and `alldata.json` only when `alldata` is
non-empty, and `earliest_totals.txt` only when `earliestTotals` is
non-empty. -/
def writtenArtifacts (m : GroupIndex) : List String :=
  let out := processGroups m
  out.reports.map (·.1)
    ++ (if 0 < out.alldata.length then ["alldata.csv", "alldata.json"] else [])
    ++ (if 0 < out.earliestTotals.length then ["earliest_totals.txt"] else [])

/-- One log line of `removeAzFilesFromContainer`: the `console.log` on a
successful delete or the `console.error` of the caught failure. -/
inductive DeleteLogEntry where
  | deleted (name : String)
  | errorLogged (name : String)
deriving DecidableEq, Repr

/-- The blob name an attempt log entry is about. -/
def DeleteLogEntry.entryName : DeleteLogEntry → String
  | .deleted n => n
  | .errorLogged n => n

/-- `removeAzFilesFromContainer` (src/az-delete.ts): one deletion attempt per
name, in order; a failing delete is caught and logged and the loop
continues. The external service's per-name outcome is the oracle
`deleteSucceeds`. -/
def removeAzFilesFromContainer (azFiles : List String)
    (deleteSucceeds : String → Bool) : List DeleteLogEntry :=
  match azFiles with
  | [] => []
  | file :: rest =>
    (if deleteSucceeds file then .deleted file else .errorLogged file)
      :: removeAzFilesFromContainer rest deleteSucceeds

/-- Proof-side: the records the grouping loop assigns to key `k`: root-level
records of the listing whose derived key is `k`, in listing order. -/
def groupsFor (blobs : List FileInfo) (k : String) : List FileInfo :=
  blobs.filter (fun b => !(jsIncludesChar b.name '/') && (getGroupKey b.name == k))

/-- Proof-side: the qualifying entries, groups of at least three records. -/
def qualEntries (es : GroupIndex) : GroupIndex :=
  es.filter (fun e => decide (3 ≤ e.2.length))

/-- Spec-side formulation of the C3 ordering property: every two records
with defined timestamps appear in ascending timestamp order. -/
def definedTimestampsAscending (l : List FileInfo) : Prop :=
  l.Pairwise (fun a b => ∀ ta, a.lastModified = some ta →
    ∀ tb, b.lastModified = some tb → ta ≤ tb)

/-! ## Helper lemmas about key derivation -/

theorem firstIdxOf_eq_none {c : Char} : ∀ {cs : List Char},
    firstIdxOf c cs = none ↔ c ∉ cs := by
  intro cs
  induction cs with
  | nil => simp [firstIdxOf]
  | cons x xs ih =>
    by_cases hx : x = c
    · subst hx
      simp [firstIdxOf]
    · have hcx : ¬ c = x := fun h => hx h.symm
      simp [firstIdxOf, hx, hcx, Option.map_eq_none', ih]

theorem firstIdxOf_take {c : Char} : ∀ {cs : List Char} {i : Nat},
    firstIdxOf c cs = some i →
    i ≤ cs.length ∧ cs.take i = cs.takeWhile (fun x => !(x == c)) := by
  intro cs
  induction cs with
  | nil => intro i h; simp [firstIdxOf] at h
  | cons x xs ih =>
    intro i h
    by_cases hx : x = c
    · subst hx
      simp [firstIdxOf] at h
      subst h
      simp [List.takeWhile]
    · rw [firstIdxOf, if_neg hx] at h
      obtain ⟨j, hj, hji⟩ := Option.map_eq_some'.mp h
      subst hji
      obtain ⟨hle, htake⟩ := ih hj
      refine ⟨by simpa using Nat.succ_le_succ hle, ?_⟩
      have hpos : (!(x == c)) = true := by simp [hx]
      simp [List.take_succ_cons, List.takeWhile_cons, hpos, htake]

theorem jsSubstring_zero_neg_one (cs : List Char) : jsSubstring cs 0 (-1) = [] := by
  have hlen : (0 : Int) ≤ (cs.length : Int) := by positivity
  simp only [jsSubstring]
  have h0 : (min (max (0 : Int) 0) (cs.length : Int)).toNat = 0 := by omega
  have h1 : (min (max (-1 : Int) 0) (cs.length : Int)).toNat = 0 := by omega
  rw [h0, h1]
  simp

theorem jsSubstring_zero_coe (cs : List Char) (i : Nat) (h : i ≤ cs.length) :
    jsSubstring cs 0 (i : Int) = cs.take i := by
  simp only [jsSubstring]
  have h0 : (min (max (0 : Int) 0) (cs.length : Int)).toNat = 0 := by omega
  have h1 : (min (max (i : Int) 0) (cs.length : Int)).toNat = i := by omega
  rw [h0, h1]
  simp

theorem getGroupKey_of_no_dot {s : String} (h : '.' ∉ s.toList) :
    getGroupKey s = "" := by
  have hidx : jsIndexOf s.toList '.' = -1 := by
    unfold jsIndexOf
    rw [firstIdxOf_eq_none.mpr h]
  simp only [getGroupKey, hidx, jsSubstring_zero_neg_one]
  rfl

theorem getGroupKey_of_dot {s : String} (h : '.' ∈ s.toList) :
    getGroupKey s = keyBeforeFirstDot s := by
  obtain ⟨i, hi⟩ : ∃ i, firstIdxOf '.' s.toList = some i := by
    cases hfi : firstIdxOf '.' s.toList with
    | none => exact absurd (firstIdxOf_eq_none.mp hfi) (not_not_intro h)
    | some i => exact ⟨i, rfl⟩
  obtain ⟨hle, htake⟩ := firstIdxOf_take hi
  have hidx : jsIndexOf s.toList '.' = (i : Int) := by
    unfold jsIndexOf
    rw [hi]
  simp only [getGroupKey, keyBeforeFirstDot, hidx, jsSubstring_zero_coe _ _ hle, htake]

/-! ## Claim C1 (corrected) -/

/-- C1 counterexample: the name `README` is non-empty and contains no `.`,
yet `getGroupKey` returns the empty string, not the whole name:
`indexOf` yields `-1` and `substring(0, -1)` clamps to the empty range. -/
theorem getGroupKey_noDot_counterexample :
    ('.' ∉ ("README" : String).toList)
      ∧ ("README" : String) ≠ ""
      ∧ getGroupKey "README" = ""
      ∧ getGroupKey "README" ≠ "README" := by
  refine ⟨by decide, by decide, by decide, by decide⟩

/-- C1 amended: for every name containing at least one `.`, `getGroupKey`
returns the substring strictly before the first `.`; for every name
containing no `.`, it returns the empty string (not the whole name). -/
theorem getGroupKey_amended (s : String) :
    ('.' ∈ s.toList → getGroupKey s = keyBeforeFirstDot s)
      ∧ ('.' ∉ s.toList → getGroupKey s = "") :=
  ⟨fun h => getGroupKey_of_dot h, fun h => getGroupKey_of_no_dot h⟩

/-- C1 witness: the amended theorem applied to `main.0c00150a9fdeef81.js.gz`,
whose key is the part before the first dot. -/
theorem getGroupKey_amended_witness :
    ('.' ∈ ("main.0c00150a9fdeef81.js.gz" : String).toList)
      ∧ getGroupKey "main.0c00150a9fdeef81.js.gz" = "main" := by
  refine ⟨by decide, ?_⟩
  rw [(getGroupKey_amended "main.0c00150a9fdeef81.js.gz").1 (by decide)]
  decide

/-! ## Claim C10 (confirmed) -/

/-- C10: any two root-level names with no `.` receive the identical group
key, so all extensionless files land in one shared group (keyed by the empty
string), which can reach the size-3 threshold and have excess records;
demonstrated concretely on `README`, `LICENSE`, `Makefile`. -/
theorem extensionless_names_share_group :
    (∀ n₁ n₂ : String, '.' ∉ n₁.toList → '.' ∉ n₂.toList →
        getGroupKey n₁ = getGroupKey n₂)
      ∧ (listAndGroupContainerFiles
            [⟨"README", some 1⟩, ⟨"LICENSE", some 2⟩, ⟨"Makefile", some 3⟩]).groupedFiles
          = [("", [⟨"README", some 1⟩, ⟨"LICENSE", some 2⟩, ⟨"Makefile", some 3⟩])]
      ∧ jsSliceDropLastTwo
            [⟨"README", some 1⟩, ⟨"LICENSE", some 2⟩, ⟨"Makefile", some 3⟩]
          = [⟨"README", some 1⟩] := by
  refine ⟨fun n₁ n₂ h₁ h₂ => ?_, by decide, by decide⟩
  rw [getGroupKey_of_no_dot h₁, getGroupKey_of_no_dot h₂]

/-- C10 witness: the shared-key theorem applied to `README` and `LICENSE`. -/
theorem extensionless_names_share_group_witness :
    ('.' ∉ ("README" : String).toList)
      ∧ ('.' ∉ ("LICENSE" : String).toList)
      ∧ getGroupKey "README" = getGroupKey "LICENSE" :=
  ⟨by decide, by decide,
    extensionless_names_share_group.1 "README" "LICENSE" (by decide) (by decide)⟩

/-! ## Claim C2 (confirmed) -/

/-- C2: for every group of at least three records, `slice(0, -2)` (the
excess) has length `n - 2`, the kept remainder has length exactly `2`, and
excess ++ kept reconstructs the original sequence; on the listing-order
group `[b.js, a.js, c.js]` the excess is `[b.js]` and the kept pair is
`[a.js, c.js]`, while the display sort by name is `[a.js, b.js, c.js]`. -/
theorem retention_split_spec :
    (∀ files : List FileInfo, 3 ≤ files.length →
        (jsSliceDropLastTwo files).length = files.length - 2
          ∧ (retentionKept files).length = 2
          ∧ jsSliceDropLastTwo files ++ retentionKept files = files)
      ∧ jsSliceDropLastTwo
            [⟨"b.js", some 1⟩, ⟨"a.js", some 2⟩, ⟨"c.js", some 3⟩]
          = [⟨"b.js", some 1⟩]
      ∧ retentionKept [⟨"b.js", some 1⟩, ⟨"a.js", some 2⟩, ⟨"c.js", some 3⟩]
          = [⟨"a.js", some 2⟩, ⟨"c.js", some 3⟩]
      ∧ [FileInfo.mk "b.js" (some 1), ⟨"a.js", some 2⟩, ⟨"c.js", some 3⟩].mergeSort nameLe
          = [⟨"a.js", some 2⟩, ⟨"b.js", some 1⟩, ⟨"c.js", some 3⟩] := by
  refine ⟨fun files h => ⟨?_, ?_, List.take_append_drop _ _⟩, by decide, by decide, ?_⟩
  · simp only [jsSliceDropLastTwo, List.length_take]
    omega
  · simp only [retentionKept, List.length_drop]
    omega
  · simp +decide [List.mergeSort, List.splitInTwo, List.splitAt, List.splitAt.go,
      List.merge, nameLe]

/-- C2 witness: the universal part applied to the three-record group of the
spec example. -/
theorem retention_split_spec_witness :
    (3 : Nat) ≤ ([⟨"b.js", some 1⟩, ⟨"a.js", some 2⟩,
        (⟨"c.js", some 3⟩ : FileInfo)] : List FileInfo).length
      ∧ jsSliceDropLastTwo
            [⟨"b.js", some 1⟩, ⟨"a.js", some 2⟩, ⟨"c.js", some 3⟩]
          ++ retentionKept [⟨"b.js", some 1⟩, ⟨"a.js", some 2⟩, ⟨"c.js", some 3⟩]
          = [⟨"b.js", some 1⟩, ⟨"a.js", some 2⟩, ⟨"c.js", some 3⟩] :=
  ⟨by decide,
    (retention_split_spec.1
      [⟨"b.js", some 1⟩, ⟨"a.js", some 2⟩, ⟨"c.js", some 3⟩] (by decide)).2.2⟩

/-! ## Claim C9 (confirmed) -/

/-- C9: the deletion utility attempts every name in the given order, exactly
once each, regardless of per-item outcomes: the log is the input list mapped
through the per-item outcome (a caught failure is logged, never aborts the
loop, no retries, no rollback), and the logged names are exactly the input;
in particular with the middle of three names failing, the other two are
still attempted. -/
theorem removeAzFiles_attempts_every_name :
    (∀ (azFiles : List String) (deleteSucceeds : String → Bool),
        removeAzFilesFromContainer azFiles deleteSucceeds
            = azFiles.map (fun f =>
                if deleteSucceeds f then DeleteLogEntry.deleted f
                else DeleteLogEntry.errorLogged f)
          ∧ (removeAzFilesFromContainer azFiles deleteSucceeds).map
              DeleteLogEntry.entryName = azFiles)
      ∧ removeAzFilesFromContainer ["a", "b", "c"] (fun f => !(f == "b"))
          = [.deleted "a", .errorLogged "b", .deleted "c"] := by
  have key : ∀ (azFiles : List String) (ok : String → Bool),
      removeAzFilesFromContainer azFiles ok
        = azFiles.map (fun f =>
            if ok f then DeleteLogEntry.deleted f else DeleteLogEntry.errorLogged f) := by
    intro azFiles ok
    induction azFiles with
    | nil => rfl
    | cons f rest ih => simp [removeAzFilesFromContainer, ih]
  refine ⟨fun azFiles ok => ⟨key azFiles ok, ?_⟩, by decide⟩
  rw [key azFiles ok, List.map_map]
  have : (DeleteLogEntry.entryName ∘ fun f =>
      if ok f then DeleteLogEntry.deleted f else DeleteLogEntry.errorLogged f)
      = fun f => f := by
    funext f
    by_cases h : ok f <;> simp [h, DeleteLogEntry.entryName]
  rw [this]
  simp

/-! ## Helper lemmas about grouping -/

theorem mapGet_mapPush (m : GroupIndex) (k : String) (f : FileInfo) (k' : String) :
    mapGet (mapPush m k f) k'
      = if k' = k then some (((mapGet m k).getD []) ++ [f]) else mapGet m k' := by
  induction m with
  | nil =>
    by_cases h : k' = k
    · simp [mapPush, mapGet, h]
    · have : ¬ k = k' := fun hk => h hk.symm
      simp [mapPush, mapGet, h, this]
  | cons e rest ih =>
    obtain ⟨k0, v⟩ := e
    by_cases h0 : k0 = k
    · subst h0
      by_cases h1 : k' = k0
      · subst h1
        simp [mapPush, mapGet]
      · have : ¬ k0 = k' := fun hk => h1 hk.symm
        simp [mapPush, mapGet, h1, this]
    · by_cases h1 : k0 = k'
      · subst h1
        simp [mapPush, mapGet, h0]
      · simp [mapPush, mapGet, h0, h1, ih]

theorem sum_mapPush (m : GroupIndex) (k : String) (f : FileInfo) :
    ((mapPush m k f).map (fun e => e.2.length)).sum
      = ((m.map (fun e => e.2.length)).sum) + 1 := by
  induction m with
  | nil => simp [mapPush]
  | cons e rest ih =>
    obtain ⟨k0, v⟩ := e
    by_cases h : k0 = k <;> simp [mapPush, h, ih] <;> omega

theorem keys_mapPush (m : GroupIndex) (k : String) (f : FileInfo) :
    (mapPush m k f).map Prod.fst
      = if k ∈ m.map Prod.fst then m.map Prod.fst else m.map Prod.fst ++ [k] := by
  induction m with
  | nil => simp [mapPush]
  | cons e rest ih =>
    obtain ⟨k0, v⟩ := e
    by_cases h : k0 = k
    · subst h
      simp [mapPush]
    · have : ¬ k = k0 := fun hk => h hk.symm
      by_cases hm : k ∈ rest.map Prod.fst <;>
        simp [mapPush, h, this, hm, ih]

theorem keys_nodup_mapPush {m : GroupIndex} (k : String) (f : FileInfo)
    (h : (m.map Prod.fst).Nodup) : ((mapPush m k f).map Prod.fst).Nodup := by
  rw [keys_mapPush]
  by_cases hm : k ∈ m.map Prod.fst
  · simpa [hm] using h
  · simp only [hm, if_false]
    simp [List.nodup_append, h, hm]

theorem length_filter_split (l : List FileInfo) (p : FileInfo → Bool) :
    (l.filter p).length + (l.filter (fun a => !(p a))).length = l.length := by
  induction l with
  | nil => simp
  | cons x xs ih => by_cases h : p x <;> simp [h, ih] <;> omega

theorem foldl_groupStep_total (blobs : List FileInfo) :
    ∀ acc : GroupingResult,
      (blobs.foldl groupStep acc).totalFilesConsidered
        = acc.totalFilesConsidered + blobs.length := by
  induction blobs with
  | nil => intro acc; simp
  | cons b rest ih =>
    intro acc
    rw [List.foldl_cons, ih]
    by_cases h : jsIncludesChar b.name '/' <;> simp [groupStep, h] <;> omega

theorem foldl_groupStep_nested (blobs : List FileInfo) :
    ∀ acc : GroupingResult,
      (blobs.foldl groupStep acc).nestedFileCount
        = acc.nestedFileCount
          + (blobs.filter (fun b => jsIncludesChar b.name '/')).length := by
  induction blobs with
  | nil => intro acc; simp
  | cons b rest ih =>
    intro acc
    rw [List.foldl_cons, ih]
    by_cases h : jsIncludesChar b.name '/' <;> simp [groupStep, h] <;> omega

theorem foldl_groupStep_sum (blobs : List FileInfo) :
    ∀ acc : GroupingResult,
      (((blobs.foldl groupStep acc).groupedFiles).map (fun e => e.2.length)).sum
        = ((acc.groupedFiles.map (fun e => e.2.length)).sum)
          + (blobs.filter (fun b => !(jsIncludesChar b.name '/'))).length := by
  induction blobs with
  | nil => intro acc; simp
  | cons b rest ih =>
    intro acc
    rw [List.foldl_cons, ih]
    by_cases h : jsIncludesChar b.name '/' <;>
      simp [groupStep, h, sum_mapPush] <;> omega

theorem foldl_groupStep_nodup (blobs : List FileInfo) :
    ∀ acc : GroupingResult, (acc.groupedFiles.map Prod.fst).Nodup →
      (((blobs.foldl groupStep acc).groupedFiles).map Prod.fst).Nodup := by
  induction blobs with
  | nil => intro acc h; simpa using h
  | cons b rest ih =>
    intro acc h
    rw [List.foldl_cons]
    apply ih
    by_cases hb : jsIncludesChar b.name '/'
    · simpa [groupStep, hb] using h
    · simpa [groupStep, hb] using keys_nodup_mapPush (getGroupKey b.name) b h

theorem foldl_groupStep_get (blobs : List FileInfo) :
    ∀ (acc : GroupingResult) (k : String),
      mapGet ((blobs.foldl groupStep acc).groupedFiles) k
        = match mapGet acc.groupedFiles k with
          | some v => some (v ++ groupsFor blobs k)
          | none =>
            if groupsFor blobs k = [] then none else some (groupsFor blobs k) := by
  induction blobs with
  | nil =>
    intro acc k
    cases h : mapGet acc.groupedFiles k <;> simp [groupsFor, h]
  | cons b rest ih =>
    intro acc k
    rw [List.foldl_cons, ih]
    by_cases hb : jsIncludesChar b.name '/'
    · have hstep : (groupStep acc b).groupedFiles = acc.groupedFiles := by
        simp [groupStep, hb]
      have hgf : groupsFor (b :: rest) k = groupsFor rest k := by
        simp [groupsFor, List.filter_cons, hb]
      rw [hstep, hgf]
    · have hstep : (groupStep acc b).groupedFiles
          = mapPush acc.groupedFiles (getGroupKey b.name) b := by
        simp [groupStep, hb]
      rw [hstep, mapGet_mapPush]
      by_cases hk : k = getGroupKey b.name
      · subst hk
        have hgf : groupsFor (b :: rest) (getGroupKey b.name)
            = b :: groupsFor rest (getGroupKey b.name) := by
          simp [groupsFor, List.filter_cons, hb]
        rw [if_pos rfl, hgf]
        cases h : mapGet acc.groupedFiles (getGroupKey b.name) <;> simp [h]
      · have hgf : groupsFor (b :: rest) k = groupsFor rest k := by
          have : ¬ getGroupKey b.name = k := fun h => hk h.symm
          simp [groupsFor, List.filter_cons, hb, this]
        rw [if_neg hk, hgf]

/-! ## Claim C6 (confirmed) -/

/-- C6: grouping partitions the listing. The loop counts every record;
exactly the records whose name contains `/` are skipped and counted; every
group holds exactly the root-level records with its key, in listing order;
keys are unique (each record is in exactly one group); and
`skippedCount + Σ |group| = totalCount`. -/
theorem grouping_is_partition (blobs : List FileInfo) :
    (listAndGroupContainerFiles blobs).totalFilesConsidered = blobs.length
      ∧ (listAndGroupContainerFiles blobs).nestedFileCount
          = (blobs.filter (fun b => jsIncludesChar b.name '/')).length
      ∧ (∀ k files,
          mapGet (listAndGroupContainerFiles blobs).groupedFiles k = some files →
          files = groupsFor blobs k)
      ∧ (∀ k, groupsFor blobs k ≠ [] →
          mapGet (listAndGroupContainerFiles blobs).groupedFiles k
            = some (groupsFor blobs k))
      ∧ ((listAndGroupContainerFiles blobs).groupedFiles.map Prod.fst).Nodup
      ∧ (listAndGroupContainerFiles blobs).nestedFileCount
          + (((listAndGroupContainerFiles blobs).groupedFiles).map
              (fun e => e.2.length)).sum
          = (listAndGroupContainerFiles blobs).totalFilesConsidered := by
  unfold listAndGroupContainerFiles
  have hget := foldl_groupStep_get blobs ⟨[], 0, 0⟩
  refine ⟨by simpa using foldl_groupStep_total blobs ⟨[], 0, 0⟩, ?_, ?_, ?_, ?_, ?_⟩
  · simpa using foldl_groupStep_nested blobs ⟨[], 0, 0⟩
  · intro k files h
    have hk := hget k
    rw [h] at hk
    simp only [mapGet] at hk
    by_cases hgf : groupsFor blobs k = []
    · rw [if_pos hgf] at hk
      exact absurd hk (by simp)
    · rw [if_neg hgf] at hk
      exact Option.some.inj hk
  · intro k hgf
    have hk := hget k
    simp only [mapGet] at hk
    rw [if_neg hgf] at hk
    exact hk
  · exact foldl_groupStep_nodup blobs ⟨[], 0, 0⟩ (by simp)
  · rw [foldl_groupStep_total blobs _, foldl_groupStep_nested blobs _,
      foldl_groupStep_sum blobs _]
    simpa using length_filter_split blobs (fun b => jsIncludesChar b.name '/')

/-- C6 witness: the characterization applied to a concrete listing with one
nested record and two groups. -/
theorem grouping_is_partition_witness :
    mapGet (listAndGroupContainerFiles
        [⟨"README", some 1⟩, ⟨"main.ab.js", some 4⟩, ⟨"dir/x.js", some 5⟩,
         ⟨"main.cd.js", some 6⟩]).groupedFiles "main"
      = some [⟨"main.ab.js", some 4⟩, ⟨"main.cd.js", some 6⟩]
      ∧ [FileInfo.mk "main.ab.js" (some 4), ⟨"main.cd.js", some 6⟩]
          = groupsFor
            [⟨"README", some 1⟩, ⟨"main.ab.js", some 4⟩, ⟨"dir/x.js", some 5⟩,
             ⟨"main.cd.js", some 6⟩] "main" :=
  ⟨by decide,
    (grouping_is_partition
      [⟨"README", some 1⟩, ⟨"main.ab.js", some 4⟩, ⟨"dir/x.js", some 5⟩,
       ⟨"main.cd.js", some 6⟩]).2.2.1 "main"
      [⟨"main.ab.js", some 4⟩, ⟨"main.cd.js", some 6⟩] (by decide)⟩

/-! ## Helper lemmas about the saving loop -/

theorem processEntry_small {acc : RunOutput} {e : String × List FileInfo}
    (h : e.2.length < 3) : processEntry acc e = acc := by
  simp [processEntry, h]

theorem processEntry_large {acc : RunOutput} {e : String × List FileInfo}
    (h : 3 ≤ e.2.length) :
    processEntry acc e
      = ⟨acc.reports ++ [(sanitizeKey e.1 ++ ".txt", e.2.mergeSort nameLe)],
         acc.alldata ++ e.2.mergeSort nameLe,
         acc.earliestTotals ++ jsSliceDropLastTwo e.2⟩ := by
  have hnl : ¬ e.2.length < 3 := by omega
  have hpos : 0 < (jsSliceDropLastTwo e.2).length := by
    simp only [jsSliceDropLastTwo, List.length_take]
    omega
  simp [processEntry, hnl, hpos]

theorem foldl_processEntry (es : GroupIndex) :
    ∀ acc : RunOutput,
      es.foldl processEntry acc
        = ⟨acc.reports ++ (qualEntries es).map
              (fun e => (sanitizeKey e.1 ++ ".txt", e.2.mergeSort nameLe)),
           acc.alldata ++ (qualEntries es).flatMap (fun e => e.2.mergeSort nameLe),
           acc.earliestTotals
             ++ (qualEntries es).flatMap (fun e => jsSliceDropLastTwo e.2)⟩ := by
  induction es with
  | nil => intro acc; simp [qualEntries]
  | cons e rest ih =>
    intro acc
    rw [List.foldl_cons]
    by_cases h : 3 ≤ e.2.length
    · rw [processEntry_large h, ih]
      simp [qualEntries, List.filter_cons, h, List.append_assoc]
    · have h3 : e.2.length < 3 := by omega
      rw [processEntry_small h3, ih]
      simp [qualEntries, List.filter_cons, h]

theorem processGroups_eq (m : GroupIndex) :
    processGroups m
      = ⟨(qualEntries (sortedGroupEntries m)).map
            (fun e => (sanitizeKey e.1 ++ ".txt", e.2.mergeSort nameLe)),
         (qualEntries (sortedGroupEntries m)).flatMap (fun e => e.2.mergeSort nameLe),
         (qualEntries (sortedGroupEntries m)).flatMap
            (fun e => jsSliceDropLastTwo e.2)⟩ := by
  unfold processGroups
  rw [foldl_processEntry]
  simp

theorem mem_qualEntries {es : GroupIndex} {e : String × List FileInfo} :
    e ∈ qualEntries es ↔ e ∈ es ∧ 3 ≤ e.2.length := by
  simp [qualEntries]

theorem mem_sortedGroupEntries {m : GroupIndex} {e : String × List FileInfo} :
    e ∈ sortedGroupEntries m ↔ e ∈ m := by
  simp [sortedGroupEntries]

/-! ## Helper lemmas about the comparators and the earliest date -/

theorem nameLe_trans : ∀ a b c : FileInfo, nameLe a b → nameLe b c → nameLe a c := by
  intro a b c hab hbc
  simp only [nameLe, decide_eq_true_eq] at hab hbc ⊢
  exact le_trans hab hbc

theorem nameLe_total : ∀ a b : FileInfo, nameLe a b || nameLe b a := by
  intro a b
  simp only [nameLe, Bool.or_eq_true, decide_eq_true_eq]
  exact le_total a.name b.name

theorem groupLe_trans : ∀ a b c : String × List FileInfo,
    groupLe a b → groupLe b c → groupLe a c := by
  intro a b c hab hbc
  simp only [groupLe, decide_eq_true_eq] at hab hbc ⊢
  unfold groupCompare at hab hbc ⊢
  rcases ha : findEarliestDateInGroup a.2 with _ | ea <;>
    rcases hb : findEarliestDateInGroup b.2 with _ | eb <;>
      rcases hc : findEarliestDateInGroup c.2 with _ | ec <;>
        rw [ha, hb] at hab <;> rw [hb, hc] at hbc <;> simp_all <;> omega

theorem groupLe_total : ∀ a b : String × List FileInfo,
    groupLe a b || groupLe b a := by
  intro a b
  simp only [groupLe, Bool.or_eq_true, decide_eq_true_eq]
  unfold groupCompare
  rcases ha : findEarliestDateInGroup a.2 with _ | ea <;>
    rcases hb : findEarliestDateInGroup b.2 with _ | eb <;> simp <;> omega

theorem foldl_earliestFold_some (g : List FileInfo) :
    ∀ e : Nat,
      g.foldl earliestFold (some e)
        = some ((g.filterMap FileInfo.lastModified).foldl min e) := by
  induction g with
  | nil => intro e; simp
  | cons f fs ih =>
    intro e
    rw [List.foldl_cons]
    cases h : f.lastModified with
    | none => simp [earliestFold, h, ih]
    | some v =>
      have hmin : earliestFold (some e) f = some (min e v) := by
        simp only [earliestFold, h]
        split <;> (congr 1; omega)
      rw [hmin, ih (min e v)]
      simp [List.filterMap_cons, h]

theorem findEarliest_eq_min (g : List FileInfo) :
    findEarliestDateInGroup g = (g.filterMap FileInfo.lastModified).min? := by
  induction g with
  | nil => rfl
  | cons f fs ih =>
    unfold findEarliestDateInGroup at ih ⊢
    rw [List.foldl_cons]
    cases h : f.lastModified with
    | none => simp [earliestFold, h, ih, List.filterMap_cons]
    | some v =>
      have : earliestFold none f = some v := by simp [earliestFold, h]
      rw [this, foldl_earliestFold_some fs v]
      simp [List.filterMap_cons, h, List.min?]

theorem findEarliest_none_iff (g : List FileInfo) :
    findEarliestDateInGroup g = none ↔ ∀ f ∈ g, f.lastModified = none := by
  rw [findEarliest_eq_min, List.min?_eq_none_iff, List.filterMap_eq_nil_iff]

theorem findEarliest_some (g : List FileInfo) (t : Nat)
    (h : findEarliestDateInGroup g = some t) :
    (∃ f ∈ g, f.lastModified = some t)
      ∧ ∀ f ∈ g, ∀ u, f.lastModified = some u → t ≤ u := by
  rw [findEarliest_eq_min] at h
  obtain ⟨hmem, hlb⟩ := (List.min?_eq_some_iff
    (fun a => Nat.le_refl a)
    (fun a b => by rw [Nat.min_def]; split <;> simp)
    (fun a b c => Nat.le_min)).mp h
  refine ⟨?_, ?_⟩
  · obtain ⟨f, hf, hft⟩ := List.mem_filterMap.mp hmem
    exact ⟨f, hf, hft⟩
  · intro f hf u hu
    exact hlb u (List.mem_filterMap.mpr ⟨f, hf, hu⟩)

/-! ## Claim C5 (confirmed) -/

/-- C5: `findEarliestDateInGroup` returns the minimum defined timestamp of
the group (absent exactly when no record has one), and the group ordering is
a stable permutation of the entries that is pairwise sorted by the group
comparator — ascending by earliest date, every absent-earliest group after
every defined one — while entries comparing equal keep their original
relative order. -/
theorem orderGroups_sorted_by_earliest :
    (∀ g : List FileInfo,
        (findEarliestDateInGroup g = none ↔ ∀ f ∈ g, f.lastModified = none)
          ∧ (∀ t, findEarliestDateInGroup g = some t →
              (∃ f ∈ g, f.lastModified = some t)
                ∧ ∀ f ∈ g, ∀ u, f.lastModified = some u → t ≤ u))
      ∧ (∀ m : GroupIndex,
          (sortedGroupEntries m).Perm m
            ∧ (sortedGroupEntries m).Pairwise (fun a b => groupLe a b = true)
            ∧ ∀ a b : String × List FileInfo, groupCompare a b = 0 →
                [a, b].Sublist m → [a, b].Sublist (sortedGroupEntries m)) := by
  refine ⟨fun g => ⟨findEarliest_none_iff g, fun t ht => findEarliest_some g t ht⟩,
    fun m => ⟨List.mergeSort_perm m groupLe, ?_, ?_⟩⟩
  · exact List.sorted_mergeSort groupLe_trans groupLe_total m
  · intro a b h0 hsub
    apply List.pair_sublist_mergeSort groupLe_trans groupLe_total ?_ hsub
    simp [groupLe, h0]

/-- C5 witness: the earliest-date part applied to a concrete group whose
minimum defined timestamp is 3. -/
theorem orderGroups_sorted_by_earliest_witness :
    findEarliestDateInGroup
        [⟨"x.1", some 5⟩, ⟨"x.2", none⟩, ⟨"x.3", some 3⟩] = some 3
      ∧ ((∃ f ∈ ([⟨"x.1", some 5⟩, ⟨"x.2", none⟩,
            (⟨"x.3", some 3⟩ : FileInfo)] : List FileInfo), f.lastModified = some 3)
          ∧ ∀ f ∈ ([⟨"x.1", some 5⟩, ⟨"x.2", none⟩,
              (⟨"x.3", some 3⟩ : FileInfo)] : List FileInfo),
              ∀ u, f.lastModified = some u → 3 ≤ u) :=
  ⟨by decide,
    (orderGroups_sorted_by_earliest.1
      [⟨"x.1", some 5⟩, ⟨"x.2", none⟩, ⟨"x.3", some 3⟩]).2 3 (by decide)⟩

/-! ## Claim C7 (confirmed) -/

/-- C7: every record in `alldata` (hence in `alldata.csv`/`alldata.json`),
every record in `earliestTotals` (hence in `earliest_totals.txt`), and every
per-group report file, originates from a group of at least three records: a
group of fewer than three records is skipped before any output is produced
and contributes nothing to any artifact. -/
theorem small_groups_contribute_nothing (m : GroupIndex) :
    (∀ f ∈ (processGroups m).alldata,
        ∃ k files, (k, files) ∈ m ∧ 3 ≤ files.length ∧ f ∈ files)
      ∧ (∀ f ∈ (processGroups m).earliestTotals,
          ∃ k files, (k, files) ∈ m ∧ 3 ≤ files.length ∧ f ∈ files)
      ∧ (∀ r ∈ (processGroups m).reports,
          ∃ k files, (k, files) ∈ m ∧ 3 ≤ files.length
            ∧ r = (sanitizeKey k ++ ".txt", files.mergeSort nameLe)) := by
  rw [processGroups_eq]
  refine ⟨?_, ?_, ?_⟩
  · intro f hf
    simp only at hf
    obtain ⟨e, he, hfe⟩ := List.mem_flatMap.mp hf
    obtain ⟨hes, hlen⟩ := mem_qualEntries.mp he
    exact ⟨e.1, e.2, mem_sortedGroupEntries.mp hes, hlen,
      List.mem_mergeSort.mp hfe⟩
  · intro f hf
    simp only at hf
    obtain ⟨e, he, hfe⟩ := List.mem_flatMap.mp hf
    obtain ⟨hes, hlen⟩ := mem_qualEntries.mp he
    exact ⟨e.1, e.2, mem_sortedGroupEntries.mp hes, hlen,
      List.mem_of_mem_take hfe⟩
  · intro r hr
    simp only at hr
    obtain ⟨e, he, hre⟩ := List.mem_map.mp hr
    obtain ⟨hes, hlen⟩ := mem_qualEntries.mp he
    exact ⟨e.1, e.2, mem_sortedGroupEntries.mp hes, hlen, hre.symm⟩

/-- C7 witness: the origin property applied to a concrete record of the
`earliestTotals` accumulator. -/
theorem small_groups_contribute_nothing_witness :
    (⟨"f.2", some 2⟩ : FileInfo) ∈ (processGroups
        [("f", [⟨"f.2", some 2⟩, ⟨"f.1", some 1⟩, ⟨"f.3", some 3⟩])]).earliestTotals
      ∧ ∃ k files,
          (k, files) ∈ ([("f", [⟨"f.2", some 2⟩, ⟨"f.1", some 1⟩,
              (⟨"f.3", some 3⟩ : FileInfo)])] : GroupIndex)
            ∧ 3 ≤ files.length ∧ (⟨"f.2", some 2⟩ : FileInfo) ∈ files := by
  have hmem : (⟨"f.2", some 2⟩ : FileInfo) ∈ (processGroups
      [("f", [⟨"f.2", some 2⟩, ⟨"f.1", some 1⟩, ⟨"f.3", some 3⟩])]).earliestTotals := by
    rw [processGroups_eq]
    simp [sortedGroupEntries, qualEntries, jsSliceDropLastTwo]
  exact ⟨hmem,
    (small_groups_contribute_nothing
      [("f", [⟨"f.2", some 2⟩, ⟨"f.1", some 1⟩, ⟨"f.3", some 3⟩])]).2.1 _ hmem⟩

/-! ## Claim C4 (corrected) -/

/-- C4 counterexample: `filesInGroup.sort(...)` sorts the array held by the
map in place, so after the report phase a qualifying group's sequence in the
`GroupIndex` is no longer its original listing order. -/
theorem report_sort_mutation_counterexample :
    finalGroups [("f", [⟨"f.2", some 2⟩, ⟨"f.1", some 1⟩, ⟨"f.3", some 3⟩])]
      ≠ [("f", [⟨"f.2", some 2⟩, ⟨"f.1", some 1⟩, ⟨"f.3", some 3⟩])] := by
  have h : finalGroups [("f", [⟨"f.2", some 2⟩, ⟨"f.1", some 1⟩, ⟨"f.3", some 3⟩])]
      = [("f", [⟨"f.1", some 1⟩, ⟨"f.2", some 2⟩, ⟨"f.3", some 3⟩])] := by
    simp +decide [finalGroups, List.mergeSort, List.splitInTwo, List.splitAt,
      List.splitAt.go, List.merge, nameLe]
  rw [h]
  decide

/-- C4 amended: report generation sorts each qualifying group's array in
place by name (the map is mutated, keys and record multisets preserved;
groups of fewer than three records stay in original listing order), but the
retention decision is unaffected because the `slice(0, -2)` excess is taken
from the original-order sequence before the sort. -/
theorem report_sort_mutation_amended (m : GroupIndex) :
    (finalGroups m).map Prod.fst = m.map Prod.fst
      ∧ (∀ e ∈ m, e.2.length < 3 → (e.1, e.2) ∈ finalGroups m)
      ∧ (∀ e ∈ m, 3 ≤ e.2.length →
          (e.1, e.2.mergeSort nameLe) ∈ finalGroups m
            ∧ (e.2.mergeSort nameLe).Perm e.2
            ∧ (e.2.mergeSort nameLe).Pairwise (fun a b => nameLe a b = true))
      ∧ (processGroups m).earliestTotals
          = (qualEntries (sortedGroupEntries m)).flatMap
              (fun e => jsSliceDropLastTwo e.2) := by
  refine ⟨?_, ?_, ?_, ?_⟩
  · simp [finalGroups]
  · intro e he hlen
    have heq : (e.1, if e.2.length < 3 then e.2 else e.2.mergeSort nameLe)
        = (e.1, e.2) := by
      simp [hlen]
    simpa [finalGroups, heq] using List.mem_map_of_mem
      (fun e : String × List FileInfo =>
        (e.1, if e.2.length < 3 then e.2 else e.2.mergeSort nameLe)) he
  · intro e he hlen
    have hne : ¬ e.2.length < 3 := by omega
    refine ⟨?_, List.mergeSort_perm e.2 nameLe, ?_⟩
    · have heq : (e.1, if e.2.length < 3 then e.2 else e.2.mergeSort nameLe)
          = (e.1, e.2.mergeSort nameLe) := by
        simp [hne]
      simpa [finalGroups, heq] using List.mem_map_of_mem
        (fun e : String × List FileInfo =>
          (e.1, if e.2.length < 3 then e.2 else e.2.mergeSort nameLe)) he
    · exact List.sorted_mergeSort nameLe_trans nameLe_total e.2
  · rw [processGroups_eq]

/-- C4 witness: the amended theorem applied to a concrete one-group map of
three records. -/
theorem report_sort_mutation_amended_witness :
    (("f", [⟨"f.2", some 2⟩, ⟨"f.1", some 1⟩, ⟨"f.3", some 3⟩])
          ∈ ([("f", [⟨"f.2", some 2⟩, ⟨"f.1", some 1⟩,
              (⟨"f.3", some 3⟩ : FileInfo)])] : GroupIndex))
      ∧ (3 : Nat) ≤ 3
      ∧ ([FileInfo.mk "f.2" (some 2), ⟨"f.1", some 1⟩,
            ⟨"f.3", some 3⟩].mergeSort nameLe).Perm
          [⟨"f.2", some 2⟩, ⟨"f.1", some 1⟩, ⟨"f.3", some 3⟩] :=
  ⟨by decide, by decide,
    ((report_sort_mutation_amended
        [("f", [⟨"f.2", some 2⟩, ⟨"f.1", some 1⟩, ⟨"f.3", some 3⟩])]).2.2.1
      ("f", [⟨"f.2", some 2⟩, ⟨"f.1", some 1⟩, ⟨"f.3", some 3⟩])
      (by decide) (by decide)).2.1⟩

/-! ## Claim C8 (corrected) -/

/-- C8 counterexample: a run whose only group has two records writes none of
the aggregate artifacts: no per-group report, no `alldata.csv`, no
`alldata.json`, and no `earliest_totals.txt`, because both accumulators are
empty and the writes are guarded by non-emptiness checks. -/
theorem aggregate_artifacts_counterexample :
    writtenArtifacts [("ab", [⟨"ab.1", some 1⟩, ⟨"ab.2", some 2⟩])] = []
      ∧ "alldata.csv" ∉ writtenArtifacts [("ab", [⟨"ab.1", some 1⟩, ⟨"ab.2", some 2⟩])]
      ∧ "alldata.json" ∉ writtenArtifacts [("ab", [⟨"ab.1", some 1⟩, ⟨"ab.2", some 2⟩])]
      ∧ "earliest_totals.txt"
          ∉ writtenArtifacts [("ab", [⟨"ab.1", some 1⟩, ⟨"ab.2", some 2⟩])] := by
  have h : writtenArtifacts [("ab", [⟨"ab.1", some 1⟩, ⟨"ab.2", some 2⟩])] = [] := by
    simp [writtenArtifacts, processGroups_eq, sortedGroupEntries, qualEntries]
  rw [h]
  simp

theorem length_pos_of_mem_qual {es : GroupIndex} {e : String × List FileInfo}
    (he : e ∈ qualEntries es) : 0 < (e.2.mergeSort nameLe).length := by
  have := (mem_qualEntries.mp he).2
  simp only [List.length_mergeSort]
  omega

theorem slice_length_pos_of_mem_qual {es : GroupIndex} {e : String × List FileInfo}
    (he : e ∈ qualEntries es) : 0 < (jsSliceDropLastTwo e.2).length := by
  have := (mem_qualEntries.mp he).2
  simp only [jsSliceDropLastTwo, List.length_take]
  omega

/-- C8 amended: the saving phase writes (overwriting on rerun) the aggregate
artifacts `alldata.csv`, `alldata.json` and the summary `earliest_totals.txt`
exactly when at least one group has three or more records; otherwise none of
the three files is written. -/
theorem aggregate_artifacts_amended (m : GroupIndex) :
    ("alldata.csv" ∈ writtenArtifacts m ↔ ∃ e ∈ m, 3 ≤ e.2.length)
      ∧ ("alldata.json" ∈ writtenArtifacts m ↔ ∃ e ∈ m, 3 ≤ e.2.length)
      ∧ ("earliest_totals.txt" ∈ writtenArtifacts m ↔ ∃ e ∈ m, 3 ≤ e.2.length) := by
  by_cases hex : ∃ e ∈ m, 3 ≤ e.2.length
  · obtain ⟨e, hem, hlen⟩ := hex
    have hq : e ∈ qualEntries (sortedGroupEntries m) :=
      mem_qualEntries.mpr ⟨mem_sortedGroupEntries.mpr hem, hlen⟩
    have hA : 0 < ((qualEntries (sortedGroupEntries m)).flatMap
        (fun e => e.2.mergeSort nameLe)).length := by
      obtain ⟨x, hx⟩ := List.exists_mem_of_length_pos (length_pos_of_mem_qual hq)
      exact List.length_pos_of_mem (List.mem_flatMap.mpr ⟨e, hq, hx⟩)
    have hE : 0 < ((qualEntries (sortedGroupEntries m)).flatMap
        (fun e => jsSliceDropLastTwo e.2)).length := by
      obtain ⟨x, hx⟩ := List.exists_mem_of_length_pos (slice_length_pos_of_mem_qual hq)
      exact List.length_pos_of_mem (List.mem_flatMap.mpr ⟨e, hq, hx⟩)
    simp only [List.length_flatMap] at hA hE
    refine ⟨⟨fun _ => ⟨e, hem, hlen⟩, fun _ => ?_⟩,
      ⟨fun _ => ⟨e, hem, hlen⟩, fun _ => ?_⟩,
      ⟨fun _ => ⟨e, hem, hlen⟩, fun _ => ?_⟩⟩ <;>
      simp [writtenArtifacts, processGroups_eq, hA, hE]
  · have hq0 : qualEntries (sortedGroupEntries m) = [] := by
      rcases hq : qualEntries (sortedGroupEntries m) with _ | ⟨e, rest⟩
      · rfl
      · have he : e ∈ qualEntries (sortedGroupEntries m) := by
          rw [hq]; exact List.mem_cons_self e rest
        obtain ⟨hes, hlen⟩ := mem_qualEntries.mp he
        exact absurd ⟨e, mem_sortedGroupEntries.mp hes, hlen⟩ hex
    have hW : writtenArtifacts m = [] := by
      simp [writtenArtifacts, processGroups_eq, hq0]
    rw [hW]
    simp [hex]

/-- C8 witness: the amended theorem applied to a concrete map with one
qualifying group, concluding that the summary file is written. -/
theorem aggregate_artifacts_amended_witness :
    "earliest_totals.txt" ∈ writtenArtifacts
      [("f", [⟨"f.2", some 2⟩, ⟨"f.1", some 1⟩, ⟨"f.3", some 3⟩])] :=
  (aggregate_artifacts_amended
      [("f", [⟨"f.2", some 2⟩, ⟨"f.1", some 1⟩, ⟨"f.3", some 3⟩])]).2.2.mpr
    ⟨("f", [⟨"f.2", some 2⟩, ⟨"f.1", some 1⟩, ⟨"f.3", some 3⟩]),
      by decide, by decide⟩

/-! ## Claim C3 (corrected) -/

/-- C3 counterexample: the comparator returns `0` (equal) whenever either
timestamp is absent — not only for absent-vs-absent — and consequently the
sorted output can leave two defined-timestamp records out of ascending
order: on `[none, 5, none, 2]` the stable sort changes nothing and the
record with timestamp 5 precedes the one with timestamp 2. -/
theorem earliest_report_order_counterexample :
    earliestCompare ⟨"b", some 5⟩ ⟨"c", none⟩ = 0
      ∧ saveEarliestFileRecords
            [⟨"a", none⟩, ⟨"b", some 5⟩, ⟨"c", none⟩, ⟨"d", some 2⟩]
          = [⟨"a", none⟩, ⟨"b", some 5⟩, ⟨"c", none⟩, ⟨"d", some 2⟩]
      ∧ ¬ definedTimestampsAscending (saveEarliestFileRecords
            [⟨"a", none⟩, ⟨"b", some 5⟩, ⟨"c", none⟩, ⟨"d", some 2⟩]) := by
  have hsort : saveEarliestFileRecords
        [⟨"a", none⟩, ⟨"b", some 5⟩, ⟨"c", none⟩, ⟨"d", some 2⟩]
      = [⟨"a", none⟩, ⟨"b", some 5⟩, ⟨"c", none⟩, ⟨"d", some 2⟩] := by
    simp +decide [saveEarliestFileRecords, List.mergeSort, List.splitInTwo,
      List.splitAt, List.splitAt.go, List.merge, earliestLe, earliestCompare]
  refine ⟨by decide, hsort, ?_⟩
  rw [hsort]
  intro h
  simp [definedTimestampsAscending, List.pairwise_cons] at h

theorem earliestLe_defined_trans :
    ∀ a b c : FileInfo,
      (fun a b : FileInfo =>
          decide (a.lastModified.getD 0 ≤ b.lastModified.getD 0)) a b →
      (fun a b : FileInfo =>
          decide (a.lastModified.getD 0 ≤ b.lastModified.getD 0)) b c →
      (fun a b : FileInfo =>
          decide (a.lastModified.getD 0 ≤ b.lastModified.getD 0)) a c := by
  intro a b c hab hbc
  simp only [decide_eq_true_eq] at hab hbc ⊢
  omega

theorem earliestLe_defined_total :
    ∀ a b : FileInfo,
      ((fun a b : FileInfo =>
          decide (a.lastModified.getD 0 ≤ b.lastModified.getD 0)) a b
        || (fun a b : FileInfo =>
          decide (a.lastModified.getD 0 ≤ b.lastModified.getD 0)) b a) := by
  intro a b
  simp only [Bool.or_eq_true, decide_eq_true_eq]
  omega

/-- C3 amended: the excess-only report lists a permutation of the excess
records sorted by a comparator that treats any pair in which either
timestamp is absent as equal (not only absent-vs-absent); when every record
has a defined timestamp, the output is ascending by `lastModified`. -/
theorem earliest_report_order_amended (l : List FileInfo) :
    (saveEarliestFileRecords l).Perm l
      ∧ (∀ a b : FileInfo, a.lastModified = none ∨ b.lastModified = none →
          earliestCompare a b = 0)
      ∧ ((∀ f ∈ l, f.lastModified ≠ none) →
          definedTimestampsAscending (saveEarliestFileRecords l)) := by
  refine ⟨List.mergeSort_perm l earliestLe, ?_, ?_⟩
  · intro a b hab
    unfold earliestCompare
    rcases hab with h | h <;> rw [h]
    · cases b.lastModified <;> rfl
    · cases a.lastModified <;> rfl
  · intro hdef
    have hagree : ∀ a ∈ l, ∀ b ∈ l,
        earliestLe a b
          = (fun a b : FileInfo =>
              decide (a.lastModified.getD 0 ≤ b.lastModified.getD 0)) a b := by
      intro a ha b hb
      obtain ⟨ta, hta⟩ := Option.ne_none_iff_exists'.mp (hdef a ha)
      obtain ⟨tb, htb⟩ := Option.ne_none_iff_exists'.mp (hdef b hb)
      simp only [earliestLe, earliestCompare, hta, htb, Option.getD_some]
      exact decide_eq_decide.mpr (by omega)
    have hmap := List.map_mergeSort (f := id) (l := l)
      (r := earliestLe)
      (s := fun a b : FileInfo =>
        decide (a.lastModified.getD 0 ≤ b.lastModified.getD 0))
      (fun a ha b hb => by simpa using hagree a ha b hb)
    simp only [List.map_id] at hmap
    have hsorted := List.sorted_mergeSort
      earliestLe_defined_trans earliestLe_defined_total l
    unfold definedTimestampsAscending saveEarliestFileRecords
    rw [hmap]
    refine hsorted.imp ?_
    intro a b hle ta hta tb htb
    simp only [hta, htb, Option.getD_some, decide_eq_true_eq] at hle
    exact hle

/-- C3 witness: the amended theorem applied to a concrete all-defined list. -/
theorem earliest_report_order_amended_witness :
    (∀ f ∈ ([⟨"a", some 9⟩, ⟨"b", some 4⟩,
        (⟨"c", some 6⟩ : FileInfo)] : List FileInfo), f.lastModified ≠ none)
      ∧ definedTimestampsAscending (saveEarliestFileRecords
          [⟨"a", some 9⟩, ⟨"b", some 4⟩, ⟨"c", some 6⟩]) :=
  ⟨by decide,
    (earliest_report_order_amended
      [⟨"a", some 9⟩, ⟨"b", some 4⟩, ⟨"c", some 6⟩]).2.2 (by decide)⟩
